import Mathlib

/-!
# Telegram business-mode stores of openclaw: a shallow embedding

The per-chat JSONL message log (`message-store.ts`): append, read,
compaction (`deduplicateMessages`), pagination (`loadChatMessages`),
pruning (`maybePruneChatMessages`), substring search
(`searchBusinessMessages`), chat metadata merge (`updateChatMeta`);
and the connection registry (`connection-store.ts`):
`loadBusinessConnections`, `getActiveBusinessConnectionId`.

A JSONL file is modelled as `none` (missing) or a list of lines, each
parsed (`some record`) or corrupt (`none`).  JS numbers carrying ids,
timestamps and counts are modelled as `Int`.
-/

/-- Message direction (`types.ts`). -/
inductive MsgDirection where
  | incoming
  | outgoing
deriving DecidableEq

/-- Record kind: fresh message, edit, or synthetic deletion marker. -/
inductive MsgEvent where
  | new
  | edited
  | deleted
deriving DecidableEq

/-- One line of a chat's `messages.jsonl` log (`types.ts`, `StoredBusinessMessage`). -/
structure StoredBusinessMessage where
  messageId : Int
  date : Int
  storedAt : Int
  fromId : Int
  fromFirstName : String
  fromLastName : Option String
  fromUsername : Option String
  text : Option String
  caption : Option String
  direction : MsgDirection
  replyToMessageId : Option Int
  businessConnectionId : String
  event : MsgEvent
  deletedMessageIds : Option (List Int)
deriving DecidableEq

abbrev Msg := StoredBusinessMessage

/-- The `deletedIds` set of `deduplicateMessages`, collected from every
deletion marker anywhere in the record list
(`r.event === "deleted" && r.deletedMessageIds` with the id in the array;
a missing array is falsy and contributes nothing). -/
def isDeleted (records : List Msg) (i : Int) : Bool :=
  decide (∃ s ∈ records, s.event = MsgEvent.deleted ∧ i ∈ s.deletedMessageIds.getD [])

/-- `Map.set` of the `byId` map of `deduplicateMessages`: replace the record
stored under key `r.messageId` in place, or append a new entry. -/
def byIdInsert (acc : List Msg) (r : Msg) : List Msg :=
  if ∃ y ∈ acc, y.messageId = r.messageId then
    acc.map (fun x => if x.messageId = r.messageId then r else x)
  else
    acc ++ [r]

/-- The `byId` loop of `deduplicateMessages`: skip deletion markers and
records whose id is in the deleted set; later records replace earlier
ones with the same id. -/
def buildById (dead : Int → Bool) : List Msg → List Msg → List Msg
  | acc, [] => acc
  | acc, r :: rest =>
    if r.event = MsgEvent.deleted then buildById dead acc rest
    else if dead r.messageId then buildById dead acc rest
    else buildById dead (byIdInsert acc r) rest

/-- The comparator of the final `toSorted` of `deduplicateMessages`:
`a.date - b.date || a.messageId - b.messageId`, i.e. ascending
`(date, messageId)` lexicographic order. -/
def canonLE (a b : Msg) : Prop :=
  a.date < b.date ∨ (a.date = b.date ∧ a.messageId ≤ b.messageId)

instance : DecidableRel canonLE := fun a b => by
  unfold canonLE
  infer_instance

instance : IsTotal Msg canonLE := by
  constructor
  intro a b
  unfold canonLE
  omega

instance : IsTrans Msg canonLE := by
  constructor
  intro a b c
  unfold canonLE
  omega

/-- `deduplicateMessages`: collect deleted ids, keep the latest record per
id skipping markers and deleted ids, sort by `(date, messageId)`.
The kept records have pairwise distinct `messageId`s, so every
`(date, messageId)`-comparator sort of them is the same list;
`toSorted` is modelled by `insertionSort`. -/
def deduplicateMessages (records : List Msg) : List Msg :=
  List.insertionSort canonLE (buildById (isDeleted records) [] records)

/-- A JSONL file on disk: `none` when missing or unreadable, otherwise the
non-blank lines, each parsed (`some record`) or corrupt (`none`). -/
abbrev JsonlFile := Option (List (Option Msg))

/-- `readJsonl`: a missing file gives `[]`; corrupt lines are skipped. -/
def readJsonl : JsonlFile → List Msg
  | none => []
  | some lines => lines.filterMap id

/-- `loadChatMessages`: canonical view, optional `after` and `before`
message-id filters, then the last `limit` entries (`limit` defaults to 50;
a nonpositive `limit` means unbounded). -/
def loadChatMessages (file : JsonlFile) (limit before after : Option Int) : List Msg :=
  let m0 := deduplicateMessages (readJsonl file)
  let m1 := match after with
    | some a => m0.filter (fun m => a < m.messageId)
    | none => m0
  let m2 := match before with
    | some b => m1.filter (fun m => m.messageId < b)
    | none => m1
  let lim := limit.getD 50
  if 0 < lim ∧ lim < (m2.length : Int) then
    m2.drop (m2.length - lim.toNat)
  else
    m2

/-- `maybePruneChatMessages`, file decision: `none` means the file is left
untouched, `some msgs` means it is rewritten to exactly `msgs`.
`nowSec` is `Math.floor(Date.now() / 1000)`. -/
def maybePruneCore (raw : List Msg) (maxMessages maxAgeDays nowSec : Int) : Option (List Msg) :=
  if maxMessages ≤ 0 ∧ maxAgeDays ≤ 0 then none
  else if raw.length = 0 then none
  else if 0 < maxMessages ∧ (raw.length : Int) ≤ maxMessages ∧ maxAgeDays ≤ 0 then none
  else
    let m1 := deduplicateMessages raw
    let m2 := if 0 < maxAgeDays then
        m1.filter (fun m => nowSec - maxAgeDays * 86400 ≤ m.date)
      else m1
    let m3 := if 0 < maxMessages ∧ maxMessages < (m2.length : Int) then
        m2.drop (m2.length - maxMessages.toNat)
      else m2
    if (raw.length : Int) ≤ (m3.length : Int) then none else some m3

/-- Per-chat `meta.json` (`types.ts`, `StoredChatMeta`). -/
structure StoredChatMeta where
  chatId : Int
  firstName : String
  lastName : Option String
  username : Option String
  lastMessageAt : Int
  messageCount : Int
deriving DecidableEq

/-- A chat's on-disk state: its message log (as parsed records) and its
metadata document (`none` when missing or corrupt). -/
structure ChatState where
  log : List Msg
  meta : Option StoredChatMeta
deriving DecidableEq

/-- `maybePruneChatMessages` as a state transformer: on rewrite the log
becomes the retained records and the metadata message count (when the
meta file is readable) is synced to the retained count. -/
def maybePruneChatMessages (st : ChatState) (maxMessages maxAgeDays nowSec : Int) : ChatState :=
  match maybePruneCore st.log maxMessages maxAgeDays nowSec with
  | none => st
  | some msgs =>
    ChatState.mk msgs (st.meta.map (fun m => { m with messageCount := (msgs.length : Int) }))

/-- JS `toLowerCase`, per character. -/
def toLowerStr (s : String) : String :=
  String.mk (s.data.map Char.toLower)

/-- JS `String.prototype.includes`: `needle` occurs contiguously in `hay`. -/
def containsSub (hay needle : String) : Bool :=
  (List.range (hay.data.length + 1)).any (fun i => needle.data.isPrefixOf (hay.data.drop i))

/-- The match test of `searchBusinessMessages`:
`(m.text ?? m.caption ?? "").toLowerCase().includes(lowerQuery)`. -/
def matchesQuery (lowerQuery : String) (m : Msg) : Bool :=
  containsSub (toLowerStr (m.text.getD (m.caption.getD ""))) lowerQuery

/-- Inner loop of `searchBusinessMessages` over one chat's canonical
messages, breaking once `limit` results are collected. -/
def searchInChat (lowerQuery : String) (limit : Int) (cid : Int) :
    List Msg → List (Int × Msg) → List (Int × Msg)
  | [], results => results
  | m :: ms, results =>
    if limit ≤ (results.length : Int) then results
    else if matchesQuery lowerQuery m then
      searchInChat lowerQuery limit cid ms (results ++ [(cid, m)])
    else searchInChat lowerQuery limit cid ms results

/-- Outer loop of `searchBusinessMessages` over the enumerated chats,
breaking once `limit` results are collected. -/
def searchChats (lowerQuery : String) (limit : Int) :
    List (Int × List Msg) → List (Int × Msg) → List (Int × Msg)
  | [], results => results
  | c :: rest, results =>
    if limit ≤ (results.length : Int) then results
    else searchChats lowerQuery limit rest
      (searchInChat lowerQuery limit c.1 (deduplicateMessages c.2) results)

/-- `searchBusinessMessages` over an enumerated list of chats
`(chatId, raw log records)`; `limit` defaults to 20 at the call site. -/
def searchBusinessMessages (chats : List (Int × List Msg)) (query : String) (limit : Int) :
    List (Int × Msg) :=
  searchChats (toLowerStr query) limit chats []

/-- Every match in chat enumeration order and canonical per-chat order,
with no limit: the reference stream the search loop truncates. -/
def allMatches (chats : List (Int × List Msg)) (lowerQuery : String) : List (Int × Msg) :=
  chats.flatMap (fun c =>
    ((deduplicateMessages c.2).filter (matchesQuery lowerQuery)).map (fun m => (c.1, m)))

/-- Capability flags of a stored connection (`types.ts`). -/
structure BusinessConnRights where
  canReply : Bool
  canReadMessages : Bool
  canDeleteOutgoingMessages : Bool
  canDeleteAllMessages : Bool
deriving DecidableEq

/-- A stored business connection (`types.ts`, `StoredBusinessConnection`). -/
structure StoredBusinessConnection where
  id : String
  userId : Int
  userChatId : Int
  firstName : String
  lastName : Option String
  username : Option String
  date : Int
  isEnabled : Bool
  rights : Option BusinessConnRights
  updatedAt : Int
deriving DecidableEq

/-- The parsed `connections.json` document; `connections` holds
`Object.values` of the keyed map, in insertion order. -/
structure BusinessConnectionStore where
  version : Int
  connections : List StoredBusinessConnection
deriving DecidableEq

/-- The on-disk `connections.json`: missing, unparsable, or a parsed
document with a `version` field and an optional `connections` map
(`none` models a falsy or absent `connections`). -/
inductive ConnectionsDisk where
  | missing
  | corrupt
  | doc (version : Int) (connections : Option (List StoredBusinessConnection))

/-- `loadBusinessConnections`: the parsed store when `version === 1` and
`connections` is truthy, otherwise the empty version-1 store. -/
def loadBusinessConnections : ConnectionsDisk → BusinessConnectionStore
  | ConnectionsDisk.doc v (some cs) =>
    if v = 1 then BusinessConnectionStore.mk v cs else BusinessConnectionStore.mk 1 []
  | _ => BusinessConnectionStore.mk 1 []

/-- The loop of `getActiveBusinessConnectionId`: running best enabled
connection; a strictly larger `updatedAt` replaces the best. -/
def bestEnabled (acc : Option StoredBusinessConnection) :
    List StoredBusinessConnection → Option StoredBusinessConnection
  | [] => acc
  | c :: rest =>
    if c.isEnabled = false then bestEnabled acc rest
    else match acc with
      | none => bestEnabled (some c) rest
      | some b =>
        if b.updatedAt < c.updatedAt then bestEnabled (some c) rest
        else bestEnabled acc rest

/-- `getActiveBusinessConnectionId` over `Object.values(store.connections)`. -/
def getActiveBusinessConnectionId (conns : List StoredBusinessConnection) : Option String :=
  (bestEnabled none conns).map (fun c => c.id)

/-- The `partial` argument of `updateChatMeta`:
`Partial<Omit<StoredChatMeta, "messageCount">> & { incrementCount?: boolean }`.
`none` = key absent; for the optional meta fields, `some none` = key
present with value `undefined`. -/
structure ChatMetaPatch where
  pchatId : Option Int
  pfirstName : Option String
  plastName : Option (Option String)
  pusername : Option (Option String)
  plastMessageAt : Option Int
  incrementCount : Bool
deriving DecidableEq

/-- The fresh-chat default metadata of `updateChatMeta`. -/
def defaultChatMeta (chatId : Int) : StoredChatMeta :=
  StoredChatMeta.mk chatId "" none none 0 0

/-- `updateChatMeta`: the spread merge
`{ ...existing, ...rest, chatId, messageCount }`.  A key present in the
patch overwrites the stored field (also when its value is `undefined`);
`chatId` is forced to the argument; only `incrementCount` touches
`messageCount`. -/
def updateChatMeta (existing : Option StoredChatMeta) (chatId : Int) (p : ChatMetaPatch) :
    StoredChatMeta :=
  let ex := existing.getD (defaultChatMeta chatId)
  StoredChatMeta.mk chatId
    (p.pfirstName.getD ex.firstName)
    (p.plastName.getD ex.lastName)
    (p.pusername.getD ex.username)
    (p.plastMessageAt.getD ex.lastMessageAt)
    (if p.incrementCount then ex.messageCount + 1 else ex.messageCount)

/-- The synthetic record built by `appendDeletionMarker`. -/
def mkDeletionMarker (ids : List Int) (bizId : String) (nowSec nowMs : Int) : Msg :=
  StoredBusinessMessage.mk 0 nowSec nowMs 0 "" none none none none
    MsgDirection.incoming none bizId MsgEvent.deleted (some ids)

/-- The spec's canonical-view sentence, word for word: a record survives
iff it is not a deletion marker, no deletion marker *after* it names its
id, and no later non-deletion record carries its id. -/
def specSurvivors : List Msg → List Msg
  | [] => []
  | r :: rest =>
    if r.event ≠ MsgEvent.deleted ∧
        (¬ ∃ s ∈ rest, s.event = MsgEvent.deleted ∧ r.messageId ∈ s.deletedMessageIds.getD []) ∧
        (¬ ∃ s ∈ rest, s.event ≠ MsgEvent.deleted ∧ s.messageId = r.messageId) then
      r :: specSurvivors rest
    else specSurvivors rest

/-- The last non-deletion record per id, in last-occurrence order. -/
def lastNonDeleted : List Msg → List Msg
  | [] => []
  | r :: rest =>
    if r.event ≠ MsgEvent.deleted ∧
        (¬ ∃ s ∈ rest, s.event ≠ MsgEvent.deleted ∧ s.messageId = r.messageId) then
      r :: lastNonDeleted rest
    else lastNonDeleted rest

/-- Amended canonical view: deletion markers apply to the whole log,
independent of their position; per surviving id the last non-deletion
record is kept. -/
def amendedSurvivors (records : List Msg) : List Msg :=
  (lastNonDeleted records).filter (fun r => !(isDeleted records r.messageId))

/-- No record of `l` other than a deletion marker carries id `i`. -/
def NoLaterWithId (l : List Msg) (i : Int) : Prop :=
  ∀ s ∈ l, s.event ≠ MsgEvent.deleted → s.messageId ≠ i

/-- `x` occurs in `l` with no later non-deletion record of the same id. -/
def IsLastWithId (l : List Msg) (x : Msg) : Prop :=
  ∃ l₁ l₂, l = l₁ ++ x :: l₂ ∧ NoLaterWithId l₂ x.messageId

/-- `x` survives the `byId` loop run over `l` with deleted-set `dead`. -/
def SurvivesIn (dead : Int → Bool) (l : List Msg) (x : Msg) : Prop :=
  x.event ≠ MsgEvent.deleted ∧ dead x.messageId = false ∧ IsLastWithId l x

/-- No record of `l` would be inserted by the `byId` loop under key `i`. -/
def NoInsertWithId (dead : Int → Bool) (l : List Msg) (i : Int) : Prop :=
  ∀ s ∈ l, s.event ≠ MsgEvent.deleted → dead s.messageId = false → s.messageId ≠ i

/-- A concrete `new` record, id 1, date 100 (the spec scenario's first append). -/
def scenarioNew1 : Msg :=
  StoredBusinessMessage.mk 1 100 100000 7 "alice" none none (some "v1") none
    MsgDirection.incoming none "conn" MsgEvent.new none

/-- A concrete `edited` record, id 1, date 101, text "v2" (the scenario's second append). -/
def scenarioEdit1 : Msg :=
  StoredBusinessMessage.mk 1 101 101000 7 "alice" none none (some "v2") none
    MsgDirection.incoming none "conn" MsgEvent.edited none

/-- The records appended before the deletion marker in the spec scenario. -/
def scenarioPre : List Msg := [scenarioNew1, scenarioEdit1]

/-- The spec scenario log: new(1), edited(1), then a marker deleting id 1. -/
def scenarioLog : List Msg := scenarioPre ++ [mkDeletionMarker [1] "conn" 102 102000]

/-- A log in which a deletion marker naming id 1 precedes a later `new`
record with id 1. -/
def cexLog : List Msg := [mkDeletionMarker [1] "conn" 50 50000, scenarioNew1]

/-- A raw log for the C3 spot check: id 1 new+edited, ids 2 and 3 new. -/
def pruneRawSpot : List Msg :=
  [scenarioNew1, scenarioEdit1,
    StoredBusinessMessage.mk 2 102 102000 7 "alice" none none (some "hi") none
      MsgDirection.incoming none "conn" MsgEvent.new none,
    StoredBusinessMessage.mk 3 103 103000 7 "alice" none none (some "yo") none
      MsgDirection.incoming none "conn" MsgEvent.new none]

/-- The filter stage of `loadChatMessages`: the canonical view restricted
by the optional `after` (ids strictly greater) and `before` (ids strictly
smaller) bounds, before any limit is applied. -/
def canonFiltered (file : JsonlFile) (before after : Option Int) : List Msg :=
  let m0 := deduplicateMessages (readJsonl file)
  let m1 := match after with
    | some a => m0.filter (fun m => a < m.messageId)
    | none => m0
  match before with
  | some b => m1.filter (fun m => m.messageId < b)
  | none => m1

/-- An enabled connection "a" with `updatedAt = 100`. -/
def connA : StoredBusinessConnection :=
  StoredBusinessConnection.mk "a" 1 11 "A" none none 10 true none 100

/-- An enabled connection "b" with `updatedAt = 200`. -/
def connB : StoredBusinessConnection :=
  StoredBusinessConnection.mk "b" 2 12 "B" none none 10 true none 200

/-- A disabled connection "c" with `updatedAt = 300`. -/
def connC : StoredBusinessConnection :=
  StoredBusinessConnection.mk "c" 3 13 "C" none none 10 false none 300

/-- The spec scenario's connection store values. -/
def connsSpot : List StoredBusinessConnection := [connA, connB, connC]

/-- Stored metadata for the C10 spot check. -/
def metaSpot : StoredChatMeta := StoredChatMeta.mk 7 "Al" (some "Smith") none 10 3

/-- A patch whose `lastName` key is present with value `undefined`, whose
`username` key is absent, and which increments the count. -/
def patchSpot : ChatMetaPatch :=
  ChatMetaPatch.mk none (some "Alice") (some none) none (some 20) true

theorem isDeleted_eq_true_iff {records : List Msg} {i : Int} :
    isDeleted records i = true ↔
      ∃ s ∈ records, s.event = MsgEvent.deleted ∧ i ∈ s.deletedMessageIds.getD [] := by
  unfold isDeleted
  exact decide_eq_true_iff

theorem isDeleted_eq_false_iff {records : List Msg} {i : Int} :
    isDeleted records i = false ↔
      ∀ s ∈ records, s.event = MsgEvent.deleted → i ∉ s.deletedMessageIds.getD [] := by
  unfold isDeleted
  simp

theorem mem_byIdInsert {acc : List Msg} {r x : Msg} :
    x ∈ byIdInsert acc r ↔ x = r ∨ (x ∈ acc ∧ x.messageId ≠ r.messageId) := by
  unfold byIdInsert
  split_ifs with h
  · simp only [List.mem_map]
    constructor
    · rintro ⟨y, hy, rfl⟩
      by_cases hid : y.messageId = r.messageId
      · exact Or.inl (by rw [if_pos hid])
      · rw [if_neg hid]
        exact Or.inr ⟨hy, hid⟩
    · rintro (rfl | ⟨hx, hid⟩)
      · obtain ⟨y, hy, hyid⟩ := h
        exact ⟨y, hy, by rw [if_pos hyid]⟩
      · exact ⟨x, hx, by rw [if_neg hid]⟩
  · push_neg at h
    simp only [List.mem_append, List.mem_singleton]
    constructor
    · rintro (hx | rfl)
      · exact Or.inr ⟨hx, h x hx⟩
      · exact Or.inl rfl
    · rintro (rfl | ⟨hx, _⟩)
      · exact Or.inr rfl
      · exact Or.inl hx

theorem noLaterWithId_iff_not_exists {l : List Msg} {i : Int} :
    NoLaterWithId l i ↔ ¬ ∃ s ∈ l, s.event ≠ MsgEvent.deleted ∧ s.messageId = i := by
  unfold NoLaterWithId
  push_neg
  rfl

theorem isLastWithId_nil {x : Msg} : ¬ IsLastWithId [] x := by
  rintro ⟨l₁, l₂, h, -⟩
  simp at h

theorem isLastWithId_cons {r x : Msg} {l : List Msg} :
    IsLastWithId (r :: l) x ↔
      (x = r ∧ NoLaterWithId l r.messageId) ∨ IsLastWithId l x := by
  constructor
  · rintro ⟨l₁, l₂, heq, hno⟩
    cases l₁ with
    | nil =>
      simp only [List.nil_append, List.cons.injEq] at heq
      obtain ⟨h1, h2⟩ := heq
      subst h1
      subst h2
      exact Or.inl ⟨rfl, hno⟩
    | cons a l₁ =>
      simp only [List.cons_append, List.cons.injEq] at heq
      exact Or.inr ⟨l₁, l₂, heq.2, hno⟩
  · rintro (⟨rfl, hno⟩ | ⟨l₁, l₂, heq, hno⟩)
    · exact ⟨[], l, rfl, hno⟩
    · exact ⟨r :: l₁, l₂, by rw [heq, List.cons_append], hno⟩

theorem survivesIn_cons {dead : Int → Bool} {r x : Msg} {l : List Msg} :
    SurvivesIn dead (r :: l) x ↔
      (x = r ∧ r.event ≠ MsgEvent.deleted ∧ dead r.messageId = false ∧
        NoLaterWithId l r.messageId) ∨
      SurvivesIn dead l x := by
  unfold SurvivesIn
  rw [isLastWithId_cons]
  constructor
  · rintro ⟨he, hd, (⟨rfl, hno⟩ | hlast)⟩
    · exact Or.inl ⟨rfl, he, hd, hno⟩
    · exact Or.inr ⟨he, hd, hlast⟩
  · rintro (⟨rfl, he, hd, hno⟩ | ⟨he, hd, hlast⟩)
    · exact ⟨he, hd, Or.inl ⟨rfl, hno⟩⟩
    · exact ⟨he, hd, Or.inr hlast⟩

theorem noInsertWithId_cons {dead : Int → Bool} {r : Msg} {l : List Msg} {i : Int} :
    NoInsertWithId dead (r :: l) i ↔
      (r.event ≠ MsgEvent.deleted → dead r.messageId = false → r.messageId ≠ i) ∧
      NoInsertWithId dead l i := by
  unfold NoInsertWithId
  simp [List.forall_mem_cons]

theorem noInsert_iff_noLater {dead : Int → Bool} {l : List Msg} {i : Int}
    (hd : dead i = false) :
    NoInsertWithId dead l i ↔ NoLaterWithId l i := by
  unfold NoInsertWithId NoLaterWithId
  constructor
  · intro h s hs hse hcon
    exact h s hs hse (by rw [hcon]; exact hd) hcon
  · intro h s hs hse _
    exact h s hs hse

theorem mem_buildById (dead : Int → Bool) :
    ∀ (l acc : List Msg) (x : Msg),
      x ∈ buildById dead acc l ↔
        SurvivesIn dead l x ∨ (x ∈ acc ∧ NoInsertWithId dead l x.messageId) := by
  intro l
  induction l with
  | nil =>
    intro acc x
    unfold SurvivesIn NoInsertWithId
    simp [buildById, isLastWithId_nil]
  | cons r rest ih =>
    intro acc x
    simp only [buildById]
    by_cases he : r.event = MsgEvent.deleted
    · rw [if_pos he, ih, survivesIn_cons, noInsertWithId_cons]
      constructor
      · rintro (hs | ⟨hx, hni⟩)
        · exact Or.inl (Or.inr hs)
        · exact Or.inr ⟨hx, fun hne _ => absurd he hne, hni⟩
      · rintro ((⟨rfl, hne, -⟩ | hs) | ⟨hx, -, hni⟩)
        · exact absurd he hne
        · exact Or.inl hs
        · exact Or.inr ⟨hx, hni⟩
    · by_cases hdead : dead r.messageId = true
      · rw [if_neg he, if_pos hdead, ih, survivesIn_cons, noInsertWithId_cons]
        constructor
        · rintro (hs | ⟨hx, hni⟩)
          · exact Or.inl (Or.inr hs)
          · refine Or.inr ⟨hx, fun _ hdf => ?_, hni⟩
            simp [hdf] at hdead
        · rintro ((⟨rfl, -, hdf, -⟩ | hs) | ⟨hx, -, hni⟩)
          · simp [hdf] at hdead
          · exact Or.inl hs
          · exact Or.inr ⟨hx, hni⟩
      · have hdf : dead r.messageId = false := by
          cases hv : dead r.messageId
          · rfl
          · exact absurd hv hdead
        rw [if_neg he, if_neg hdead, ih, survivesIn_cons, noInsertWithId_cons]
        have hiff : NoInsertWithId dead rest r.messageId ↔ NoLaterWithId rest r.messageId :=
          noInsert_iff_noLater hdf
        constructor
        · rintro (hs | ⟨hx, hni⟩)
          · exact Or.inl (Or.inr hs)
          · rw [mem_byIdInsert] at hx
            rcases hx with rfl | ⟨hacc, hne⟩
            · exact Or.inl (Or.inl ⟨rfl, he, hdf, hiff.mp hni⟩)
            · exact Or.inr ⟨hacc, fun _ _ => Ne.symm hne, hni⟩
        · rintro ((⟨rfl, -, -, hno⟩ | hs) | ⟨hx, hcond, hni⟩)
          · refine Or.inr ⟨?_, hiff.mpr hno⟩
            rw [mem_byIdInsert]
            exact Or.inl rfl
          · exact Or.inl hs
          · refine Or.inr ⟨?_, hni⟩
            rw [mem_byIdInsert]
            exact Or.inr ⟨hx, fun hcon => (hcond he hdf) hcon.symm⟩

theorem mem_deduplicateMessages {records : List Msg} {x : Msg} :
    x ∈ deduplicateMessages records ↔ SurvivesIn (isDeleted records) records x := by
  unfold deduplicateMessages
  rw [List.mem_insertionSort, mem_buildById]
  simp

theorem mem_lastNonDeleted {l : List Msg} {x : Msg} :
    x ∈ lastNonDeleted l ↔ x.event ≠ MsgEvent.deleted ∧ IsLastWithId l x := by
  induction l with
  | nil => simp [lastNonDeleted, isLastWithId_nil]
  | cons r rest ih =>
    simp only [lastNonDeleted]
    split_ifs with hcond
    · obtain ⟨hne, hnex⟩ := hcond
      have hno : NoLaterWithId rest r.messageId := noLaterWithId_iff_not_exists.mpr hnex
      simp only [List.mem_cons, ih, isLastWithId_cons]
      constructor
      · rintro (rfl | ⟨hxe, hlast⟩)
        · exact ⟨hne, Or.inl ⟨rfl, hno⟩⟩
        · exact ⟨hxe, Or.inr hlast⟩
      · rintro ⟨hxe, (⟨rfl, -⟩ | hlast)⟩
        · exact Or.inl rfl
        · exact Or.inr ⟨hxe, hlast⟩
    · rw [ih, isLastWithId_cons]
      constructor
      · rintro ⟨hxe, hlast⟩
        exact ⟨hxe, Or.inr hlast⟩
      · rintro ⟨hxe, (⟨rfl, hno⟩ | hlast)⟩
        · exact absurd ⟨hxe, noLaterWithId_iff_not_exists.mp hno⟩ hcond
        · exact ⟨hxe, hlast⟩

theorem mem_amendedSurvivors {records : List Msg} {x : Msg} :
    x ∈ amendedSurvivors records ↔ SurvivesIn (isDeleted records) records x := by
  unfold amendedSurvivors SurvivesIn
  rw [List.mem_filter, mem_lastNonDeleted]
  simp only [Bool.not_eq_true']
  tauto

theorem pairwise_byIdInsert {acc : List Msg} {r : Msg}
    (h : acc.Pairwise (fun a b => a.messageId ≠ b.messageId)) :
    (byIdInsert acc r).Pairwise (fun a b => a.messageId ≠ b.messageId) := by
  unfold byIdInsert
  split_ifs with hex
  · have hids : ∀ y : Msg,
        (if y.messageId = r.messageId then r else y).messageId = y.messageId := by
      intro y
      split_ifs with hy
      · rw [hy]
      · rfl
    refine List.Pairwise.map _ ?_ h
    intro a b hab
    rw [hids a, hids b]
    exact hab
  · rw [List.pairwise_append]
    push_neg at hex
    refine ⟨h, List.pairwise_singleton _ _, ?_⟩
    intro a ha b hb
    rw [List.mem_singleton] at hb
    subst hb
    exact hex a ha

theorem pairwise_buildById (dead : Int → Bool) :
    ∀ (l acc : List Msg),
      acc.Pairwise (fun a b => a.messageId ≠ b.messageId) →
      (buildById dead acc l).Pairwise (fun a b => a.messageId ≠ b.messageId) := by
  intro l
  induction l with
  | nil =>
    intro acc h
    simpa [buildById] using h
  | cons r rest ih =>
    intro acc h
    simp only [buildById]
    split_ifs
    · exact ih acc h
    · exact ih acc h
    · exact ih _ (pairwise_byIdInsert h)

theorem pairwise_dedup_ids (records : List Msg) :
    (deduplicateMessages records).Pairwise (fun a b => a.messageId ≠ b.messageId) := by
  unfold deduplicateMessages
  exact ((List.perm_insertionSort canonLE _).pairwise_iff (fun hab => Ne.symm hab)).mpr
    (pairwise_buildById _ records [] List.Pairwise.nil)

theorem sorted_dedup (records : List Msg) :
    (deduplicateMessages records).Sorted canonLE :=
  List.sorted_insertionSort canonLE _

theorem dedup_event_ne_deleted {records : List Msg} {x : Msg}
    (hx : x ∈ deduplicateMessages records) :
    x.event ≠ MsgEvent.deleted :=
  (mem_deduplicateMessages.mp hx).1

theorem length_byIdInsert (acc : List Msg) (r : Msg) :
    (byIdInsert acc r).length ≤ acc.length + 1 := by
  unfold byIdInsert
  split_ifs
  · rw [List.length_map]
    omega
  · rw [List.length_append]
    simp

theorem length_buildById (dead : Int → Bool) :
    ∀ (l acc : List Msg), (buildById dead acc l).length ≤ acc.length + l.length := by
  intro l
  induction l with
  | nil =>
    intro acc
    simp [buildById]
  | cons r rest ih =>
    intro acc
    simp only [buildById, List.length_cons]
    split_ifs
    · exact le_trans (ih acc) (by omega)
    · exact le_trans (ih acc) (by omega)
    · refine le_trans (ih (byIdInsert acc r)) ?_
      have := length_byIdInsert acc r
      omega

theorem length_dedup_le (records : List Msg) :
    (deduplicateMessages records).length ≤ records.length := by
  unfold deduplicateMessages
  rw [List.length_insertionSort]
  simpa using length_buildById (isDeleted records) records []

theorem buildById_eq_append (dead : Int → Bool) :
    ∀ (l acc : List Msg),
      (∀ x ∈ l, x.event ≠ MsgEvent.deleted ∧ dead x.messageId = false) →
      (∀ x ∈ acc, ∀ y ∈ l, x.messageId ≠ y.messageId) →
      l.Pairwise (fun a b => a.messageId ≠ b.messageId) →
      buildById dead acc l = acc ++ l := by
  intro l
  induction l with
  | nil =>
    intro acc _ _ _
    simp [buildById]
  | cons r rest ih =>
    intro acc hall hcross hpw
    obtain ⟨hre, hrd⟩ := hall r (List.mem_cons_self r rest)
    simp only [buildById]
    rw [if_neg hre, if_neg (by simp [hrd])]
    have hnotin : ¬ ∃ y ∈ acc, y.messageId = r.messageId := by
      rintro ⟨y, hy, hyid⟩
      exact hcross y hy r (List.mem_cons_self r rest) hyid
    have hins : byIdInsert acc r = acc ++ [r] := by
      unfold byIdInsert
      rw [if_neg hnotin]
    rw [hins]
    have h1 : ∀ x ∈ rest, x.event ≠ MsgEvent.deleted ∧ dead x.messageId = false :=
      fun x hx => hall x (List.mem_cons_of_mem r hx)
    have h2 : ∀ x ∈ acc ++ [r], ∀ y ∈ rest, x.messageId ≠ y.messageId := by
      intro x hx y hy
      rcases List.mem_append.mp hx with hxa | hxr
      · exact hcross x hxa y (List.mem_cons_of_mem r hy)
      · rw [List.mem_singleton] at hxr
        subst hxr
        exact (List.pairwise_cons.mp hpw).1 y hy
    have h3 := (List.pairwise_cons.mp hpw).2
    rw [ih (acc ++ [r]) h1 h2 h3]
    simp

theorem dedup_of_clean {l : List Msg}
    (halive : ∀ x ∈ l, x.event ≠ MsgEvent.deleted)
    (hpw : l.Pairwise (fun a b => a.messageId ≠ b.messageId))
    (hsorted : l.Sorted canonLE) :
    deduplicateMessages l = l := by
  unfold deduplicateMessages
  have hdead : ∀ i, isDeleted l i = false := by
    intro i
    rw [isDeleted_eq_false_iff]
    intro s hs hse
    exact absurd hse (halive s hs)
  rw [buildById_eq_append (isDeleted l) l []
    (fun x hx => ⟨halive x hx, hdead x.messageId⟩)
    (fun x hx => absurd hx (List.not_mem_nil x)) hpw]
  rw [List.nil_append]
  exact hsorted.insertionSort_eq

/-- C1, counterexample: with a deletion marker *before* a later record of
the same id, the code's canonical view is empty while the claim's
"subsequently named" rule keeps the later record.  The claim, stated as
"the compacted view holds at most one record per id, a record being
present iff it is the last non-deletion record of its id not subsequently
named in a deletion marker", is false at `cexLog`. -/
theorem dedup_subsequent_counterexample :
    ¬ ((deduplicateMessages cexLog).Pairwise (fun a b => a.messageId ≠ b.messageId) ∧
        ∀ x : Msg, x ∈ deduplicateMessages cexLog ↔ x ∈ specSurvivors cexLog) := by
  rintro ⟨-, h⟩
  have h1 : scenarioNew1 ∈ specSurvivors cexLog := by decide
  have h2 : scenarioNew1 ∉ deduplicateMessages cexLog := by decide
  exact h2 ((h scenarioNew1).mpr h1)

/-- C1, amended: compacting the records read back from the log yields at
most one record per `messageId`, and a record is in the canonical view iff
it is not a deletion marker, its id is named in **no** deletion marker
anywhere in the log (markers apply independently of their position), and
it is the chronologically last non-deletion record with its id. -/
theorem dedup_amended (records : List Msg) :
    (deduplicateMessages records).Pairwise (fun a b => a.messageId ≠ b.messageId) ∧
    ∀ x : Msg, x ∈ deduplicateMessages records ↔ x ∈ amendedSurvivors records := by
  refine ⟨pairwise_dedup_ids records, fun x => ?_⟩
  rw [mem_deduplicateMessages, mem_amendedSurvivors]

/-- C2: appending a deletion marker whose `deletedMessageIds` contains X
after any prior records removes X from the canonical view, no matter how
often X was edited before; and the concrete scenario
new(1) → edited(1,"v2") → marker [1] compacts to the empty view. -/
theorem deletionMarker_removes_id (pre : List Msg) (ids : List Int) (bizId : String)
    (nowSec nowMs X : Int) (hX : X ∈ ids) :
    (∀ x ∈ deduplicateMessages (pre ++ [mkDeletionMarker ids bizId nowSec nowMs]),
        x.messageId ≠ X) ∧
    deduplicateMessages scenarioLog = [] := by
  constructor
  · intro x hx hxe
    have hs := mem_deduplicateMessages.mp hx
    unfold SurvivesIn at hs
    have hdead :
        isDeleted (pre ++ [mkDeletionMarker ids bizId nowSec nowMs]) X = true := by
      rw [isDeleted_eq_true_iff]
      refine ⟨mkDeletionMarker ids bizId nowSec nowMs, by simp, rfl, ?_⟩
      simpa [mkDeletionMarker] using hX
    rw [hxe] at hs
    rw [hs.2.1] at hdead
    exact Bool.false_ne_true hdead
  · decide

/-- C2 at a concrete input: the scenario marker names id 1, the canonical
view of the scenario log holds no record with id 1 and is empty. -/
theorem deletionMarker_removes_id_spot :
    (1 : Int) ∈ [(1 : Int)] ∧
    ((∀ x ∈ deduplicateMessages (scenarioPre ++ [mkDeletionMarker [1] "conn" 102 102000]),
        x.messageId ≠ 1) ∧
      deduplicateMessages scenarioLog = []) :=
  ⟨by decide, deletionMarker_removes_id scenarioPre [1] "conn" 102 102000 1 (by decide)⟩

theorem maybePruneCore_noAge (raw : List Msg) (N nowSec : Int) (hN : 0 < N) :
    maybePruneCore raw N 0 nowSec =
      if (raw.length : Int) ≤ N then none
      else some ((deduplicateMessages raw).drop
        ((deduplicateMessages raw).length - N.toNat)) := by
  unfold maybePruneCore
  rw [if_neg (by omega)]
  by_cases hle : (raw.length : Int) ≤ N
  · rw [if_pos hle]
    by_cases hz : raw.length = 0
    · rw [if_pos hz]
    · rw [if_neg hz, if_pos ⟨hN, hle, le_refl (0 : Int)⟩]
  · rw [if_neg hle]
    have hz : ¬ raw.length = 0 := by omega
    rw [if_neg hz,
      if_neg (by omega : ¬ (0 < N ∧ (raw.length : Int) ≤ N ∧ (0 : Int) ≤ 0))]
    simp only [lt_self_iff_false, if_false]
    have hdl := length_dedup_le raw
    split_ifs with h3 h4 h4
    · exfalso
      rw [List.length_drop] at h4
      omega
    · rfl
    · exfalso
      omega
    · have h0 : (deduplicateMessages raw).length - N.toNat = 0 := by omega
      rw [h0, List.drop_zero]

/-- C3: with `maxMessages = N > 0` and no age limit, pruning leaves a log
whose canonical view has exactly `min N canonical_count` records
(`canonical_count` the canonical size of the raw log); a second prune with
identical parameters rewrites nothing and changes nothing; and the file is
rewritten only when strictly fewer records than the raw count are
retained. -/
theorem prune_minCount_idempotent (raw : List Msg) (N nowSec : Int) (hN : 0 < N) :
    (deduplicateMessages ((maybePruneCore raw N 0 nowSec).getD raw)).length
        = min N.toNat (deduplicateMessages raw).length ∧
    maybePruneCore ((maybePruneCore raw N 0 nowSec).getD raw) N 0 nowSec = none ∧
    (∀ meta,
      maybePruneChatMessages
          (ChatState.mk ((maybePruneCore raw N 0 nowSec).getD raw) meta) N 0 nowSec
        = ChatState.mk ((maybePruneCore raw N 0 nowSec).getD raw) meta) ∧
    (∀ msgs, maybePruneCore raw N 0 nowSec = some msgs → msgs.length < raw.length) := by
  have hchar := maybePruneCore_noAge raw N nowSec hN
  have hdl := length_dedup_le raw
  by_cases hle : (raw.length : Int) ≤ N
  · rw [if_pos hle] at hchar
    rw [hchar]
    simp only [Option.getD_none]
    refine ⟨by omega, ?_, ?_, by rintro msgs ⟨⟩⟩
    · rw [maybePruneCore_noAge raw N nowSec hN, if_pos hle]
    · intro meta
      unfold maybePruneChatMessages
      rw [maybePruneCore_noAge raw N nowSec hN, if_pos hle]
  · rw [if_neg hle] at hchar
    rw [hchar]
    simp only [Option.getD_some]
    have hfix :
        deduplicateMessages ((deduplicateMessages raw).drop
            ((deduplicateMessages raw).length - N.toNat))
          = (deduplicateMessages raw).drop
            ((deduplicateMessages raw).length - N.toNat) := by
      refine dedup_of_clean ?_ ?_ ?_
      · intro x hx
        exact dedup_event_ne_deleted (List.mem_of_mem_drop hx)
      · exact List.Pairwise.sublist (List.drop_sublist _ _) (pairwise_dedup_ids raw)
      · exact List.Pairwise.sublist (List.drop_sublist _ _) (sorted_dedup raw)
    have hdrop : ((deduplicateMessages raw).drop
        ((deduplicateMessages raw).length - N.toNat)).length
          = min N.toNat (deduplicateMessages raw).length := by
      rw [List.length_drop]
      omega
    refine ⟨by rw [hfix, hdrop], ?_, ?_, ?_⟩
    · rw [maybePruneCore_noAge _ N nowSec hN, if_pos (by rw [hdrop]; omega)]
    · intro meta
      unfold maybePruneChatMessages
      rw [maybePruneCore_noAge _ N nowSec hN, if_pos (by rw [hdrop]; omega)]
    · rintro msgs hmsgs
      injection hmsgs with hmsgs
      rw [← hmsgs, hdrop]
      omega

/-- C3 at a concrete input: a raw log of four records (one id edited, two
other ids) pruned with `N = 2` retains the last two canonical records,
idempotently, and the rewrite dropped records. -/
theorem prune_minCount_idempotent_spot :
    (0 : Int) < 2 ∧
    ((deduplicateMessages ((maybePruneCore pruneRawSpot 2 0 500).getD pruneRawSpot)).length
        = min (Int.toNat 2) (deduplicateMessages pruneRawSpot).length ∧
      maybePruneCore ((maybePruneCore pruneRawSpot 2 0 500).getD pruneRawSpot) 2 0 500 = none ∧
      (∀ meta,
        maybePruneChatMessages
            (ChatState.mk ((maybePruneCore pruneRawSpot 2 0 500).getD pruneRawSpot) meta) 2 0 500
          = ChatState.mk ((maybePruneCore pruneRawSpot 2 0 500).getD pruneRawSpot) meta) ∧
      (∀ msgs, maybePruneCore pruneRawSpot 2 0 500 = some msgs →
        msgs.length < pruneRawSpot.length)) :=
  ⟨by decide, prune_minCount_idempotent pruneRawSpot 2 500 (by decide)⟩

/-- C9: when the age limit is unset (nonpositive) and the raw record count
is within `maxMessages`, pruning returns early: no rewrite, and the chat
state (log file and metadata) is entirely unchanged, even when
deduplication would shrink the canonical view below the raw count. -/
theorem prune_skip_frame (st : ChatState) (maxMessages maxAgeDays nowSec : Int)
    (hage : maxAgeDays ≤ 0) (hcount : (st.log.length : Int) ≤ maxMessages) :
    maybePruneCore st.log maxMessages maxAgeDays nowSec = none ∧
    maybePruneChatMessages st maxMessages maxAgeDays nowSec = st := by
  have hcore : maybePruneCore st.log maxMessages maxAgeDays nowSec = none := by
    unfold maybePruneCore
    by_cases h1 : maxMessages ≤ 0 ∧ maxAgeDays ≤ 0
    · rw [if_pos h1]
    · rw [if_neg h1]
      have hpos : 0 < maxMessages := by omega
      by_cases hz : st.log.length = 0
      · rw [if_pos hz]
      · rw [if_neg hz, if_pos ⟨hpos, hcount, hage⟩]
  refine ⟨hcore, ?_⟩
  unfold maybePruneChatMessages
  rw [hcore]

/-- C9 at a concrete input: a two-record log (a `new` and an `edited`
record of the same id) whose canonical view has only one record is left
entirely untouched by a prune with `maxMessages = 5` and no age limit. -/
theorem prune_skip_frame_spot :
    (0 : Int) ≤ 0 ∧
    ((scenarioPre.length : Int) ≤ 5 ∧
    (deduplicateMessages scenarioPre).length < scenarioPre.length ∧
    (maybePruneCore scenarioPre 5 0 1000 = none ∧
      maybePruneChatMessages (ChatState.mk scenarioPre (some (defaultChatMeta 7))) 5 0 1000
        = ChatState.mk scenarioPre (some (defaultChatMeta 7)))) :=
  ⟨by decide, by decide, by decide,
    prune_skip_frame (ChatState.mk scenarioPre (some (defaultChatMeta 7))) 5 0 1000
      (by decide) (by decide)⟩

theorem loadChatMessages_eq (file : JsonlFile) (limit before after : Option Int) :
    loadChatMessages file limit before after =
      if 0 < limit.getD 50 ∧ limit.getD 50 < ((canonFiltered file before after).length : Int)
      then (canonFiltered file before after).drop
        ((canonFiltered file before after).length - (limit.getD 50).toNat)
      else canonFiltered file before after := rfl

theorem loadChatMessages_sublist (file : JsonlFile) (limit before after : Option Int) :
    (loadChatMessages file limit before after).Sublist (canonFiltered file before after) := by
  rw [loadChatMessages_eq]
  split_ifs
  · exact List.drop_sublist _ _
  · exact List.Sublist.refl _

theorem mem_canonFiltered {file : JsonlFile} {before after : Option Int} {m : Msg} :
    m ∈ canonFiltered file before after ↔
      m ∈ deduplicateMessages (readJsonl file) ∧
      (∀ a, after = some a → a < m.messageId) ∧
      (∀ b, before = some b → m.messageId < b) := by
  unfold canonFiltered
  cases after with
  | none =>
    cases before with
    | none => simp
    | some b => simp [List.mem_filter]
  | some a =>
    cases before with
    | none => simp [List.mem_filter]
    | some b =>
      simp [List.mem_filter]
      tauto

theorem sorted_canonFiltered (file : JsonlFile) (before after : Option Int) :
    (canonFiltered file before after).Sorted canonLE := by
  unfold canonFiltered
  cases after with
  | none =>
    cases before with
    | none => exact sorted_dedup _
    | some b => exact List.Pairwise.sublist (List.filter_sublist _) (sorted_dedup _)
  | some a =>
    cases before with
    | none => exact List.Pairwise.sublist (List.filter_sublist _) (sorted_dedup _)
    | some b =>
      exact List.Pairwise.sublist
        ((List.filter_sublist _).trans (List.filter_sublist _)) (sorted_dedup _)

theorem dedup_nil : deduplicateMessages [] = [] := rfl

theorem canonFiltered_nil {file : JsonlFile} (h : readJsonl file = [])
    (before after : Option Int) :
    canonFiltered file before after = [] := by
  unfold canonFiltered
  rw [h, dedup_nil]
  cases after <;> cases before <;> rfl

/-- C4: `loadChatMessages` with `after = A` returns only ids greater than
A; with `before = B` only ids smaller than B; with both set only ids
inside both bounds, and with an unbounded limit exactly those; a chat
with a missing log file, or one with no records, yields `[]` rather than
failing. -/
theorem load_bounds (file : JsonlFile) (lim : Option Int) (A B : Int) :
    (∀ m ∈ loadChatMessages file lim none (some A), A < m.messageId) ∧
    (∀ m ∈ loadChatMessages file lim (some B) none, m.messageId < B) ∧
    (∀ m ∈ loadChatMessages file lim (some B) (some A),
      A < m.messageId ∧ m.messageId < B) ∧
    (loadChatMessages file (some 0) (some B) (some A)
      = (deduplicateMessages (readJsonl file)).filter
          (fun m => A < m.messageId ∧ m.messageId < B)) ∧
    (∀ l b a : Option Int, loadChatMessages none l b a = []) ∧
    (∀ l b a : Option Int, loadChatMessages (some []) l b a = []) := by
  refine ⟨?_, ?_, ?_, ?_, ?_, ?_⟩
  · intro m hm
    have hmem := (loadChatMessages_sublist file lim none (some A)).mem hm
    exact (mem_canonFiltered.mp hmem).2.1 A rfl
  · intro m hm
    have hmem := (loadChatMessages_sublist file lim (some B) none).mem hm
    exact (mem_canonFiltered.mp hmem).2.2 B rfl
  · intro m hm
    have hmem := (loadChatMessages_sublist file lim (some B) (some A)).mem hm
    exact ⟨(mem_canonFiltered.mp hmem).2.1 A rfl, (mem_canonFiltered.mp hmem).2.2 B rfl⟩
  · rw [loadChatMessages_eq, if_neg (by simp)]
    show ((deduplicateMessages (readJsonl file)).filter
        (fun m => decide (A < m.messageId))).filter (fun m => decide (m.messageId < B)) = _
    rw [List.filter_filter]
    apply List.filter_congr
    intro x _
    simp [Bool.and_comm]
  · intro l b a
    rw [loadChatMessages_eq, @canonFiltered_nil none rfl b a]
    split_ifs <;> simp
  · intro l b a
    rw [loadChatMessages_eq, @canonFiltered_nil (some []) rfl b a]
    split_ifs <;> simp

/-- C4 at a concrete input: a three-record file bounded by `after = 1`,
`before = 3` with unbounded limit returns exactly the id-2 record. -/
theorem load_bounds_spot :
    (∀ m ∈ loadChatMessages (some (pruneRawSpot.map some)) (some 0) none (some 1),
      1 < m.messageId) ∧
    (∀ m ∈ loadChatMessages (some (pruneRawSpot.map some)) (some 0) (some 3) none,
      m.messageId < 3) ∧
    (∀ m ∈ loadChatMessages (some (pruneRawSpot.map some)) (some 0) (some 3) (some 1),
      1 < m.messageId ∧ m.messageId < 3) ∧
    (loadChatMessages (some (pruneRawSpot.map some)) (some 0) (some 3) (some 1)
      = (deduplicateMessages (readJsonl (some (pruneRawSpot.map some)))).filter
          (fun m => 1 < m.messageId ∧ m.messageId < 3)) ∧
    (∀ l b a : Option Int, loadChatMessages none l b a = []) ∧
    (∀ l b a : Option Int, loadChatMessages (some []) l b a = []) :=
  load_bounds (some (pruneRawSpot.map some)) (some 0) 1 3

/-- C5: `loadChatMessages` applies the bounds to the canonical view first;
the limit defaults to 50; a nonpositive limit is unbounded; a positive
limit keeps exactly the last `limit` entries of the filtered sequence;
and the result is in canonical `(date, messageId)`-ascending order. -/
theorem load_limit_tail (file : JsonlFile) (before after : Option Int) (L : Int) :
    loadChatMessages file none before after
        = loadChatMessages file (some 50) before after ∧
    (L ≤ 0 → loadChatMessages file (some L) before after
        = canonFiltered file before after) ∧
    (0 < L → loadChatMessages file (some L) before after
        = (canonFiltered file before after).rtake L.toNat) ∧
    (loadChatMessages file (some L) before after).Sorted canonLE := by
  refine ⟨rfl, ?_, ?_, ?_⟩
  · intro hL
    rw [loadChatMessages_eq, if_neg (by simp only [Option.getD_some]; omega)]
  · intro hL
    rw [loadChatMessages_eq]
    unfold List.rtake
    simp only [Option.getD_some]
    split_ifs with h
    · rfl
    · rw [show (canonFiltered file before after).length - L.toNat = 0 by omega,
        List.drop_zero]
  · exact List.Pairwise.sublist (loadChatMessages_sublist file (some L) before after)
      (sorted_canonFiltered file before after)

/-- C5 at a concrete input: with limit 2 over three canonical records the
last two are returned, in ascending order. -/
theorem load_limit_tail_spot :
    (0 : Int) < 2 ∧
    (loadChatMessages (some (pruneRawSpot.map some)) none none none
        = loadChatMessages (some (pruneRawSpot.map some)) (some 50) none none) ∧
    (loadChatMessages (some (pruneRawSpot.map some)) (some 2) none none
        = (canonFiltered (some (pruneRawSpot.map some)) none none).rtake (Int.toNat 2)) ∧
    (loadChatMessages (some (pruneRawSpot.map some)) (some 2) none none).Sorted canonLE :=
  ⟨by decide,
    (load_limit_tail (some (pruneRawSpot.map some)) none none 2).1,
    (load_limit_tail (some (pruneRawSpot.map some)) none none 2).2.2.1 (by decide),
    (load_limit_tail (some (pruneRawSpot.map some)) none none 2).2.2.2⟩

theorem searchInChat_eq (lq : String) (L : Int) (cid : Int) :
    ∀ (ms : List Msg) (res : List (Int × Msg)),
      searchInChat lq L cid ms res =
        res ++ ((ms.filter (matchesQuery lq)).map (fun m => (cid, m))).take
          (L.toNat - res.length) := by
  intro ms
  induction ms with
  | nil =>
    intro res
    simp [searchInChat]
  | cons m ms ih =>
    intro res
    simp only [searchInChat]
    split_ifs with hbreak hmatch
    · rw [show L.toNat - res.length = 0 from by omega]
      simp
    · rw [ih (res ++ [(cid, m)]), List.filter_cons, if_pos hmatch, List.map_cons]
      rw [List.append_assoc]
      congr 1
      rw [List.length_append, List.length_singleton]
      rw [show L.toNat - res.length = (L.toNat - (res.length + 1)) + 1 from by omega]
      rw [List.take_succ_cons]
      rfl
    · rw [ih res, List.filter_cons, if_neg hmatch]

theorem searchChats_eq (lq : String) (L : Int) :
    ∀ (chats : List (Int × List Msg)) (res : List (Int × Msg)),
      searchChats lq L chats res =
        res ++ (allMatches chats lq).take (L.toNat - res.length) := by
  intro chats
  induction chats with
  | nil =>
    intro res
    simp [searchChats, allMatches]
  | cons c rest ih =>
    intro res
    simp only [searchChats]
    split_ifs with hbreak
    · rw [show L.toNat - res.length = 0 from by omega]
      simp
    · rw [searchInChat_eq lq L c.1 (deduplicateMessages c.2) res, ih]
      simp only [allMatches, List.flatMap_cons]
      rw [List.take_append_eq_append_take, ← List.append_assoc]
      congr 2
      rw [List.length_append, List.length_take]
      omega

theorem searchBusinessMessages_eq (chats : List (Int × List Msg)) (q : String) (L : Int) :
    searchBusinessMessages chats q L = (allMatches chats (toLowerStr q)).take L.toNat := by
  unfold searchBusinessMessages
  rw [searchChats_eq]
  simp

/-- C6: search truncates to the first `limit` entries the stream of
matches taken in chat enumeration order and, within each chat, canonical
order; hence at most `L` results when `L ≥ 0`, every one of which matches
the query case-insensitively against `text` (falling back to `caption`). -/
theorem search_limit_order (chats : List (Int × List Msg)) (q : String) (L : Int) :
    searchBusinessMessages chats q L = (allMatches chats (toLowerStr q)).take L.toNat ∧
    (0 ≤ L → ((searchBusinessMessages chats q L).length : Int) ≤ L) ∧
    (∀ p ∈ searchBusinessMessages chats q L,
      matchesQuery (toLowerStr q) p.2 = true) := by
  refine ⟨searchBusinessMessages_eq chats q L, ?_, ?_⟩
  · intro hL
    rw [searchBusinessMessages_eq]
    have hlen := List.length_take L.toNat (allMatches chats (toLowerStr q))
    omega
  · intro p hp
    rw [searchBusinessMessages_eq] at hp
    have hp' := List.mem_of_mem_take hp
    unfold allMatches at hp'
    rw [List.mem_flatMap] at hp'
    obtain ⟨c, -, hpc⟩ := hp'
    rw [List.mem_map] at hpc
    obtain ⟨m, hm, rfl⟩ := hpc
    exact (List.mem_filter.mp hm).2

/-- C6 at a concrete input: searching "V" over one chat with limit 1
returns at most one result and every result text contains "v". -/
theorem search_limit_order_spot :
    (0 : Int) ≤ 1 ∧
    (((searchBusinessMessages [(10, pruneRawSpot)] "V" 1).length : Int) ≤ 1 ∧
      ∀ p ∈ searchBusinessMessages [(10, pruneRawSpot)] "V" 1,
        matchesQuery (toLowerStr "V") p.2 = true) :=
  ⟨by decide, (search_limit_order [(10, pruneRawSpot)] "V" 1).2.1 (by decide),
    (search_limit_order [(10, pruneRawSpot)] "V" 1).2.2⟩

theorem bestEnabled_all_disabled :
    ∀ (l : List StoredBusinessConnection) (acc : Option StoredBusinessConnection),
      (∀ c ∈ l, c.isEnabled = false) → bestEnabled acc l = acc := by
  intro l
  induction l with
  | nil =>
    intro acc _
    rfl
  | cons c rest ih =>
    intro acc h
    simp only [bestEnabled]
    rw [if_pos (h c (List.mem_cons_self c rest))]
    exact ih acc (fun d hd => h d (List.mem_cons_of_mem c hd))

theorem bestEnabled_spec :
    ∀ (l : List StoredBusinessConnection) (acc : Option StoredBusinessConnection),
      (∀ x, acc = some x → x.isEnabled = true) →
      (bestEnabled acc l = none → acc = none ∧ ∀ c ∈ l, c.isEnabled = false) ∧
      (∀ b, bestEnabled acc l = some b →
        ((b ∈ l ∧ b.isEnabled = true) ∨ acc = some b) ∧
        (∀ d ∈ l, d.isEnabled = true → d.updatedAt ≤ b.updatedAt) ∧
        (∀ x, acc = some x → x.updatedAt ≤ b.updatedAt)) := by
  intro l
  induction l with
  | nil =>
    intro acc hacc
    constructor
    · intro h
      exact ⟨h, fun c hc => absurd hc (List.not_mem_nil c)⟩
    · intro b hb
      refine ⟨Or.inr hb, fun d hd => absurd hd (List.not_mem_nil d), ?_⟩
      intro x hx
      have hab : acc = some b := hb
      rw [hab] at hx
      injection hx with hx
      cases hx
      exact le_refl _
  | cons c rest ih =>
    intro acc hacc
    simp only [bestEnabled]
    by_cases hce : c.isEnabled = false
    · rw [if_pos hce]
      obtain ⟨ihn, ihs⟩ := ih acc hacc
      constructor
      · intro h
        obtain ⟨ha, hall⟩ := ihn h
        refine ⟨ha, fun d hd => ?_⟩
        rcases List.mem_cons.mp hd with rfl | hd'
        · exact hce
        · exact hall d hd'
      · intro b hb
        obtain ⟨hb1, hb2, hb3⟩ := ihs b hb
        refine ⟨?_, ?_, hb3⟩
        · rcases hb1 with ⟨hbm, hben⟩ | hacc'
          · exact Or.inl ⟨List.mem_cons_of_mem c hbm, hben⟩
          · exact Or.inr hacc'
        · intro d hd hden
          rcases List.mem_cons.mp hd with rfl | hd'
          · rw [hden] at hce
            exact absurd hce (by simp)
          · exact hb2 d hd' hden
    · rw [if_neg hce]
      have hcen : c.isEnabled = true := by
        cases hv : c.isEnabled
        · exact absurd hv hce
        · rfl
      cases acc with
      | none =>
        obtain ⟨ihn, ihs⟩ := ih (some c)
          (fun x hx => by injection hx with hx; rw [← hx]; exact hcen)
        constructor
        · intro h
          obtain ⟨ha, -⟩ := ihn h
          exact absurd ha (by simp)
        · intro b hb
          obtain ⟨hb1, hb2, hb3⟩ := ihs b hb
          refine ⟨?_, ?_, fun x hx => absurd hx (by simp)⟩
          · rcases hb1 with ⟨hbm, hben⟩ | hcb
            · exact Or.inl ⟨List.mem_cons_of_mem c hbm, hben⟩
            · injection hcb with hcb
              exact Or.inl ⟨by rw [← hcb]; exact List.mem_cons_self c rest,
                by rw [← hcb]; exact hcen⟩
          · intro d hd hden
            rcases List.mem_cons.mp hd with rfl | hd'
            · exact hb3 d rfl
            · exact hb2 d hd' hden
      | some a =>
        dsimp only
        by_cases hlt : a.updatedAt < c.updatedAt
        · rw [if_pos hlt]
          obtain ⟨ihn, ihs⟩ := ih (some c)
            (fun x hx => by injection hx with hx; rw [← hx]; exact hcen)
          constructor
          · intro h
            obtain ⟨ha, -⟩ := ihn h
            exact absurd ha (by simp)
          · intro b hb
            obtain ⟨hb1, hb2, hb3⟩ := ihs b hb
            have hcb : c.updatedAt ≤ b.updatedAt := hb3 c rfl
            refine ⟨?_, ?_, ?_⟩
            · rcases hb1 with ⟨hbm, hben⟩ | hcb'
              · exact Or.inl ⟨List.mem_cons_of_mem c hbm, hben⟩
              · injection hcb' with hcb'
                exact Or.inl ⟨by rw [← hcb']; exact List.mem_cons_self c rest,
                  by rw [← hcb']; exact hcen⟩
            · intro d hd hden
              rcases List.mem_cons.mp hd with rfl | hd'
              · exact hcb
              · exact hb2 d hd' hden
            · intro x hx
              injection hx with hx
              rw [← hx]
              exact le_trans (le_of_lt hlt) hcb
        · rw [if_neg hlt]
          obtain ⟨ihn, ihs⟩ := ih (some a) hacc
          constructor
          · intro h
            obtain ⟨ha, -⟩ := ihn h
            exact absurd ha (by simp)
          · intro b hb
            obtain ⟨hb1, hb2, hb3⟩ := ihs b hb
            have hab : a.updatedAt ≤ b.updatedAt := hb3 a rfl
            refine ⟨?_, ?_, ?_⟩
            · rcases hb1 with ⟨hbm, hben⟩ | hab'
              · exact Or.inl ⟨List.mem_cons_of_mem c hbm, hben⟩
              · exact Or.inr hab'
            · intro d hd hden
              rcases List.mem_cons.mp hd with rfl | hd'
              · omega
              · exact hb2 d hd' hden
            · intro x hx
              injection hx with hx
              rw [← hx]
              exact hab

/-- C7: the active connection id is the id of an enabled connection whose
`updatedAt` is greatest among the enabled ones; it is `none` exactly when
no connection is enabled; disabled connections are ignored no matter how
large their `updatedAt` is. -/
theorem activeConnection_spec (conns : List StoredBusinessConnection) :
    ((∀ c ∈ conns, c.isEnabled = false) → getActiveBusinessConnectionId conns = none) ∧
    (∀ c ∈ conns, c.isEnabled = true →
      ∃ b ∈ conns, b.isEnabled = true ∧
        getActiveBusinessConnectionId conns = some b.id ∧
        ∀ d ∈ conns, d.isEnabled = true → d.updatedAt ≤ b.updatedAt) := by
  constructor
  · intro h
    unfold getActiveBusinessConnectionId
    rw [bestEnabled_all_disabled conns none h]
    rfl
  · intro c hc hcen
    unfold getActiveBusinessConnectionId
    cases hb : bestEnabled none conns with
    | none =>
      obtain ⟨-, hall⟩ :=
        ((bestEnabled_spec conns none (fun x hx => absurd hx (by simp))).1) hb
      rw [hall c hc] at hcen
      exact absurd hcen (by simp)
    | some b =>
      obtain ⟨hb1, hb2, -⟩ :=
        ((bestEnabled_spec conns none (fun x hx => absurd hx (by simp))).2) b hb
      rcases hb1 with ⟨hbm, hben⟩ | hnone
      · exact ⟨b, hbm, hben, rfl, hb2⟩
      · exact absurd hnone (by simp)

/-- C7 at the spec scenario: two enabled connections with `updatedAt` 100
and 200 plus a disabled one with 300 give the id of the 200 one. -/
theorem activeConnection_spec_spot :
    connB ∈ connsSpot ∧ connB.isEnabled = true ∧
    (∃ b ∈ connsSpot, b.isEnabled = true ∧
      getActiveBusinessConnectionId connsSpot = some b.id ∧
      ∀ d ∈ connsSpot, d.isEnabled = true → d.updatedAt ≤ b.updatedAt) ∧
    getActiveBusinessConnectionId connsSpot = some "b" :=
  ⟨by decide, by decide,
    (activeConnection_spec connsSpot).2 connB (by decide) (by decide), by decide⟩

/-- C8: `loadBusinessConnections` always yields a version-1 store; a
missing document, a parse failure, a version other than 1, or an absent
`connections` map each yield the empty store rather than an error. -/
theorem loadConnections_selfHeal (d : ConnectionsDisk) :
    (loadBusinessConnections d).version = 1 ∧
    loadBusinessConnections ConnectionsDisk.missing = BusinessConnectionStore.mk 1 [] ∧
    loadBusinessConnections ConnectionsDisk.corrupt = BusinessConnectionStore.mk 1 [] ∧
    (∀ v cs, v ≠ 1 →
      loadBusinessConnections (ConnectionsDisk.doc v cs)
        = BusinessConnectionStore.mk 1 []) ∧
    (∀ v, loadBusinessConnections (ConnectionsDisk.doc v none)
      = BusinessConnectionStore.mk 1 []) := by
  refine ⟨?_, rfl, rfl, ?_, fun v => rfl⟩
  · cases d with
    | missing => rfl
    | corrupt => rfl
    | doc v cs =>
      cases cs with
      | none => rfl
      | some l =>
        unfold loadBusinessConnections
        dsimp only
        split_ifs with h
        · exact h
        · rfl
  · intro v cs hv
    cases cs with
    | none => rfl
    | some l =>
      unfold loadBusinessConnections
      dsimp only
      rw [if_neg hv]

/-- C8 at a concrete input: a version-2 document with a connections map
loads as the empty version-1 store. -/
theorem loadConnections_selfHeal_spot :
    (2 : Int) ≠ 1 ∧
    loadBusinessConnections (ConnectionsDisk.doc 2 (some [connA]))
      = BusinessConnectionStore.mk 1 [] :=
  ⟨by decide,
    (loadConnections_selfHeal ConnectionsDisk.missing).2.2.2.1 2 (some [connA]) (by decide)⟩

/-- C10: in the spread merge of `updateChatMeta` a key present in the
patch overwrites the stored field, also when its value is `undefined`
(the `some none` case of the optional fields); an absent key keeps the
stored value; `chatId` is always the given chat id; and `messageCount`
changes, by exactly one, only when `incrementCount` is set. -/
theorem updateChatMeta_merge (existing : Option StoredChatMeta) (chatId : Int)
    (p : ChatMetaPatch) :
    (updateChatMeta existing chatId p).chatId = chatId ∧
    (∀ v, p.plastName = some v → (updateChatMeta existing chatId p).lastName = v) ∧
    (p.plastName = none → (updateChatMeta existing chatId p).lastName
      = (existing.getD (defaultChatMeta chatId)).lastName) ∧
    (∀ v, p.pusername = some v → (updateChatMeta existing chatId p).username = v) ∧
    (p.pusername = none → (updateChatMeta existing chatId p).username
      = (existing.getD (defaultChatMeta chatId)).username) ∧
    (∀ v, p.pfirstName = some v → (updateChatMeta existing chatId p).firstName = v) ∧
    (p.pfirstName = none → (updateChatMeta existing chatId p).firstName
      = (existing.getD (defaultChatMeta chatId)).firstName) ∧
    (∀ v, p.plastMessageAt = some v →
      (updateChatMeta existing chatId p).lastMessageAt = v) ∧
    (p.plastMessageAt = none → (updateChatMeta existing chatId p).lastMessageAt
      = (existing.getD (defaultChatMeta chatId)).lastMessageAt) ∧
    (p.incrementCount = true → (updateChatMeta existing chatId p).messageCount
      = (existing.getD (defaultChatMeta chatId)).messageCount + 1) ∧
    (p.incrementCount = false → (updateChatMeta existing chatId p).messageCount
      = (existing.getD (defaultChatMeta chatId)).messageCount) := by
  refine ⟨rfl, ?_, ?_, ?_, ?_, ?_, ?_, ?_, ?_, ?_, ?_⟩
  · intro v hv
    simp [updateChatMeta, hv]
  · intro h
    simp [updateChatMeta, h]
  · intro v hv
    simp [updateChatMeta, hv]
  · intro h
    simp [updateChatMeta, h]
  · intro v hv
    simp [updateChatMeta, hv]
  · intro h
    simp [updateChatMeta, h]
  · intro v hv
    simp [updateChatMeta, hv]
  · intro h
    simp [updateChatMeta, h]
  · intro h
    simp [updateChatMeta, h]
  · intro h
    simp [updateChatMeta, h]

/-- C10 at a concrete input: a present-but-`undefined` `lastName` erases
the stored "Smith", the absent `username` keeps its stored value, the
chat id is forced, and the count goes up by exactly one. -/
theorem updateChatMeta_merge_spot :
    patchSpot.plastName = some none ∧
    (updateChatMeta (some metaSpot) 7 patchSpot).lastName = none ∧
    (updateChatMeta (some metaSpot) 7 patchSpot).chatId = 7 ∧
    patchSpot.pusername = none ∧
    (updateChatMeta (some metaSpot) 7 patchSpot).username
      = ((some metaSpot).getD (defaultChatMeta 7)).username ∧
    (updateChatMeta (some metaSpot) 7 patchSpot).messageCount
      = ((some metaSpot).getD (defaultChatMeta 7)).messageCount + 1 :=
  ⟨by decide,
    (updateChatMeta_merge (some metaSpot) 7 patchSpot).2.1 none (by decide),
    (updateChatMeta_merge (some metaSpot) 7 patchSpot).1,
    by decide,
    (updateChatMeta_merge (some metaSpot) 7 patchSpot).2.2.2.2.1 (by decide),
    (updateChatMeta_merge (some metaSpot) 7 patchSpot).2.2.2.2.2.2.2.2.2.1 (by decide)⟩
